import Mathlib

/-!
Verification of the perps-signal-dashboard core against its specification.

Shallow embedding of:
- MarketDataFetcher.fetch_price / fetch_all_prices / _ws_reader
  (src/attached_assets/data_fetcher_1756068934798.py)
- SignalEngine.update_prices / find_cointegrated_pairs / _analyze_pair and
  PerformanceTracker (src/attached_assets/signal_engine_1756068934800.py)
- LocalQuant.calculate_confidence / calculate_expected_edge
  (src/attached_assets/quant_1756068934800.py)
- NumPyProvider.compute of the half_life operation
  (src/attached_assets/math_engine_1756068934799.py)

Prices and all float quantities are modelled as rationals (every IEEE double is
a rational); quantities whose computation involves log or sqrt are modelled as
reals. Third-party numeric kernels that are not code of this repository
(pandas Series.corr / Series.std, numpy lstsq inside calculate_hedge_ratio,
statsmodels coint) are modelled as oracle parameters: pure functions supplied
to the embedding — these libraries are deterministic — with none standing for a
raised exception where the surrounding code catches exceptions.
-/

/-! ### Price aggregator (MarketDataFetcher) -/

/-- Source tag attached to each returned price row (data_fetcher). -/
inductive Source where
  | alchemy_wss
  | hyperliquid_ws
  | synthetic
  | hyperliquid_http
deriving DecidableEq

/-- One row of fetch_all_prices output, restricted to the fields the claims
speak about: symbol, price and source tag (bid/ask mirror price, volume and
funding are constants in these code paths). -/
structure PriceRow where
  symbol : String
  price : ℚ
  source : Source
deriving DecidableEq

/-- Per-symbol snapshot of the fetcher's mutable caches and of the outside
world, as seen by one fetch_all_prices call:
- alchemyQuote: result of _alchemy.get_latest(s) as (price, age in seconds);
  none when there is no quote or the call raised (exceptions are swallowed);
- wsCached: self.last_prices.get(s) (the same dict fetch_price reads for the
  previous value in its synthetic branch);
- httpResp: outcome of the retried HTTP POST inside fetch_price: none if every
  retry attempt raised (non-200 status, network error, unparseable price),
  some m if a response was obtained, where m = mids.get(coin) (none when the
  coin is absent from the response);
- gauss: the value random.gauss(0.0, vol) returns for this symbol, folded with
  the volatility so that a jittered price is prev * (1 + gauss). -/
structure SymEnv where
  alchemyQuote : Option (ℚ × ℚ)
  wsCached : Option ℚ
  httpResp : Option (Option ℚ)
  gauss : ℚ

/-- Fetcher-level flags: whether the alchemy feed exists and is listed in the
enabled providers, the alchemy freshness bound (ALCHEMY_MAX_AGE_SEC, default 2),
whether self.ws is connected and open, and ENABLE_SYNTHETIC_PRICES (default
enabled). -/
structure FetchCfg where
  alchemyOn : Bool
  maxAge : ℚ
  wsOpen : Bool
  enableSynth : Bool
deriving DecidableEq

/-- MarketDataFetcher.fetch_price (data_fetcher lines 144-189) for one symbol.
none models the retry-decorated coroutine raising on every attempt. Otherwise
the price is mids.get(coin) with default 0.0; a zero price triggers the
synthetic branch (jitter around the last known price, default 100.0, floored at
0.1) when ENABLE_SYNTHETIC_PRICES is set, else the fixed default 100.0. -/
def fetch_price (cfg : FetchCfg) (e : SymEnv) (s : String) : Option PriceRow :=
  match e.httpResp with
  | none => none
  | some mid =>
    let price0 : ℚ := mid.getD 0
    let price : ℚ :=
      if price0 = 0 then
        if cfg.enableSynth then
          max (1/10) ((e.wsCached.getD 100) * (1 + e.gauss))
        else 100
      else price0
    some { symbol := s, price := price, source := Source.hyperliquid_http }

/-- Pass 1 of fetch_all_prices for one symbol: a fresh alchemy quote
(age ≤ max age) when the feed is on. -/
def alchemyRow (cfg : FetchCfg) (e : SymEnv) (s : String) : Option PriceRow :=
  if cfg.alchemyOn then
    match e.alchemyQuote with
    | some q =>
      if q.2 ≤ cfg.maxAge then
        some { symbol := s, price := q.1, source := Source.alchemy_wss }
      else none
    | none => none
  else none

/-- Pass 2 of fetch_all_prices for one symbol: the HL WS cache entry, jittered
when the WS is down and synthetic prices are enabled; tagged hyperliquid_ws
when the WS is open, synthetic otherwise. -/
def cacheRow (cfg : FetchCfg) (e : SymEnv) (s : String) : Option PriceRow :=
  match e.wsCached with
  | some px =>
    let price : ℚ :=
      if ¬ cfg.wsOpen ∧ cfg.enableSynth then max (1/10) (px * (1 + e.gauss)) else px
    some { symbol := s, price := price,
           source := if cfg.wsOpen then Source.hyperliquid_ws else Source.synthetic }
  | none => none

/-- The symbols already served by pass 1 (the code's selected_symbols set). -/
def selectedSyms (cfg : FetchCfg) (env : String → SymEnv)
    (symbols : List String) : List String :=
  (symbols.filterMap (fun s => alchemyRow cfg (env s) s)).map PriceRow.symbol

/-- MarketDataFetcher.fetch_all_prices (data_fetcher lines 191-261).
Pass 1 collects fresh alchemy quotes; pass 2 serves the remaining symbols from
the WS price cache; pass 3 falls back to the retried HTTP fetch for the symbols
missing from the cache. HTTP results that are exceptions rather than dicts are
dropped with a log line (gather with return_exceptions plus the isinstance
check), so such symbols produce no row. -/
def fetch_all_prices (cfg : FetchCfg) (env : String → SymEnv)
    (symbols : List String) : List PriceRow :=
  symbols.filterMap (fun s => alchemyRow cfg (env s) s) ++
  symbols.filterMap (fun s =>
    if s ∈ selectedSyms cfg env symbols then none else cacheRow cfg (env s) s) ++
  (symbols.filter (fun s =>
    decide (s ∉ selectedSyms cfg env symbols) &&
    decide ((env s).wsCached = none))).filterMap (fun s => fetch_price cfg (env s) s)

/-- Every source fails for s without the HTTP layer itself raising: pass 1
yields no row, the WS cache has no entry, and the HTTP response arrives but
carries no usable mid (absent coin or zero price). -/
def allSourcesSoftFail (cfg : FetchCfg) (env : String → SymEnv) (s : String) : Prop :=
  alchemyRow cfg (env s) s = none ∧
  (env s).wsCached = none ∧
  ((env s).httpResp = some none ∨ (env s).httpResp = some (some 0))

/-- Environment in which every source fails hard for every symbol: no alchemy
quote, empty WS cache, and an HTTP fallback that raises on all retry attempts. -/
def envAllRaise : String → SymEnv := fun _ =>
  { alchemyQuote := none, wsCached := none, httpResp := none, gauss := 0 }

/-- Fetcher configuration for the C1 counterexample: no alchemy feed, WS down,
synthetic generation disabled. -/
def cfgC1 : FetchCfg :=
  { alchemyOn := false, maxAge := 2, wsOpen := false, enableSynth := false }

/-! ### Streaming reconnect backoff (_ws_reader) -/

/-- One iteration of the _ws_reader infinite loop (data_fetcher lines 100-142).
The iteration may contain a successful (re)connect, recorded in the flag; it
ends either with the read loop raising (caught by the except branch) or with
the async for terminating cleanly, and in both cases the coroutine sleeps
backoff seconds and then sets backoff = min(backoff * 2, 30). -/
structure WsIter where
  reconnected : Bool
deriving DecidableEq

/-- Delays slept by _ws_reader across iterations, starting from backoff state b. -/
def wsReaderRun : List WsIter → ℕ → List ℕ
  | [], _ => []
  | _ :: rest, b => b :: wsReaderRun rest (min (b * 2) 30)

/-- Delays slept by _ws_reader from task start (backoff initialised to 1). -/
def wsDelays (trace : List WsIter) : List ℕ := wsReaderRun trace 1

/-! ### Shared numeric routines (quant.py, math_engine.py) -/

/-- Arithmetic mean (pandas Series.mean), exact over ℚ; the junk value 0 for
the empty list is never reached on the verified paths. -/
def meanQ (l : List ℚ) : ℚ := l.sum / l.length

/-- Unbiased sample variance (ddof = 1, the pandas Series.std default squared),
exact over ℚ. For lists of length < 2 this gives the junk value 0 (pandas
would produce NaN); the verified statements restrict to length ≥ 2 where
relevant. -/
def sampleVar (l : List ℚ) : ℚ :=
  (l.map (fun x => (x - meanQ l) ^ 2)).sum / ((l.length : ℚ) - 1)

/-- pandas Series.std (ddof = 1) of an exact-rational series, as a real. -/
noncomputable def stdR (l : List ℚ) : ℝ := Real.sqrt ((sampleVar l : ℚ) : ℝ)

/-- spread.shift(1).dropna(): every element except the last. -/
def spreadLag (s : List ℚ) : List ℚ := s.dropLast

/-- spread.diff().dropna(): successive differences. -/
def spreadDiff (s : List ℚ) : List ℚ := (s.tail.zip s).map (fun p => p.1 - p.2)

/-- The no-intercept least-squares coefficient of spread_diff on spread_lag
computed by np.linalg.lstsq with the single column X = spread_lag: the closed
form sum(x*y) / sum(x^2), with the minimum-norm solution 0 when the column is
identically zero; alpha is its negation (math_engine lines 70-74). -/
def alphaOf (s : List ℚ) : ℚ :=
  let x := spreadLag s
  let y := spreadDiff s
  let den := (x.map (fun v => v ^ 2)).sum
  if den = 0 then 0 else -(((x.zip y).map (fun p => p.1 * p.2)).sum / den)

/-- NumPyProvider.compute of the half_life operation (math_engine lines 68-78),
which LocalQuant.calculate_half_life delegates to: alpha > 0 yields
min(-log 2 / log(1 - alpha), 30), else 30.0. The float pipeline's behaviour
when alpha > 0 fails to stay below 1 is made explicit: at alpha = 1, np.log(0)
is -inf and -log 2 / -inf is 0.0, so the result is 0.0; for alpha > 1,
np.log(1 - alpha) is NaN, and Python's min(nan, 30.0) returns nan, so the
result is NaN — modelled as none. -/
noncomputable def calculate_half_life (s : List ℚ) : Option ℝ :=
  let alpha := alphaOf s
  if 0 < alpha then
    if alpha < 1 then
      some (min (-Real.log 2 / Real.log (1 - (alpha : ℝ))) 30)
    else if alpha = 1 then some 0
    else none
  else some 30

/-- LocalQuant.calculate_expected_edge (quant lines 33-40), exact over ℚ. -/
def calculate_expected_edge (z sstd p2 hl : ℚ) : ℚ :=
  let expected_spread_change := |z| * sstd * (1/2)
  let expected_return := expected_spread_change / max p2 (1/10^9)
  let time_factor := min 1 (5 / max hl (1/10^9))
  let trading_costs : ℚ := 1/1000
  let funding_costs : ℚ := (1/10^4) * hl
  (expected_return * time_factor - trading_costs - funding_costs) * 10^4

/-- LocalQuant.calculate_confidence (quant lines 42-48), exact over ℚ. -/
def calculate_confidence (pval hl sstd : ℚ) (n : ℕ) : ℚ :=
  let coint_score := max 0 (1 - pval)
  let hl_score := 1 - (min hl 30 - 1) / 29
  let optimal_vol : ℚ := 1/50
  let vol_score := max 0 (1 - |sstd - optimal_vol| / optimal_vol)
  let sample_score := min 1 ((n : ℚ) / 200)
  coint_score * (4/10) + hl_score * (3/10) + vol_score * (2/10) + sample_score * (1/10)

/-- The divisor of the scan's z-score (signal_engine line 99):
spread_std = float(spread.std() or 1e-9). Python's `or` keeps any nonzero std
— however small — and substitutes 1e-9 only when the std is exactly zero,
which for a length ≥ 2 series happens exactly when the sample variance is 0. -/
noncomputable def zDivisor (s : List ℚ) : ℝ :=
  if sampleVar s = 0 then 1/10^9 else stdR s

/-- The scan's z-score (signal_engine line 100):
(spread.iloc[-1] - spread.mean()) / spread_std. -/
noncomputable def zOfSpread (s : List ℚ) : ℝ :=
  (((s.getLast?.getD 0 : ℚ) : ℝ) - ((meanQ s : ℚ) : ℝ)) / zDivisor s

/-- The z-score formula as worded by the claim: divide by max(std, eps) for a
fixed small positive eps. Stated from the spec for comparison with zOfSpread. -/
noncomputable def zSpecFormula (eps : ℝ) (s : List ℚ) : ℝ :=
  (((s.getLast?.getD 0 : ℚ) : ℝ) - ((meanQ s : ℚ) : ℝ)) / max (stdR s) eps

/-! ### Signal engine (SignalEngine, PerformanceTracker, signal_engine.py) -/

/-- The four signal classification labels (signal_engine line 20). -/
inductive SignalType where
  | LONG_SPREAD
  | SHORT_SPREAD
  | NEUTRAL
  | HOLD
deriving DecidableEq

/-- Scan configuration attributes, read in the code via
getattr(self.config, name, default); a missing attribute is modelled by the
field holding its inline default. -/
structure Config where
  lookback_period : ℕ := 200
  min_samples : ℕ := 30
  min_abs_correlation : ℚ := 3/10
  enable_coint_check : Bool := true
  min_cointegration_pvalue : ℚ := 1/20
  z_score_entry : ℚ := 2
  z_score_exit : ℚ := 1/2
  min_confidence : ℚ := 1/2
  max_pairs_to_track : ℕ := 10
deriving DecidableEq

/-- The configuration with every attribute at its inline default. -/
def defaultConfig : Config := {}

/-- One accepted price sample as stored in price_history by update_prices
(signal_engine lines 61-66): timestamp is opaque, price/volume/funding floats. -/
structure Sample where
  timestamp : ℕ
  price : ℚ
  volume : ℚ
  funding : ℚ
deriving DecidableEq

/-- One inbound batch row: data['symbol'], data['timestamp'], data['price'],
and the optional data.get('volume') / data.get('funding_rate'), where none
models an absent or None entry (the code's `or 0` maps falsy values to 0). -/
structure Row where
  symbol : String
  timestamp : ℕ
  price : ℚ
  volume : Option ℚ
  funding_rate : Option ℚ
deriving DecidableEq

def Row.toSample (r : Row) : Sample :=
  { timestamp := r.timestamp, price := r.price,
    volume := r.volume.getD 0, funding := r.funding_rate.getD 0 }

/-- self.price_history: a Python dict iterated in insertion order, modelled as
an association list with distinct keys kept in insertion order. -/
abbrev HistMap := List (String × List Sample)

def findHist : HistMap → String → Option (List Sample)
  | [], _ => none
  | (k, h) :: rest, s => if k = s then some h else findHist rest s

/-- self.price_history.get(sym, []). -/
def histOf (st : HistMap) (s : String) : List Sample := (findHist st s).getD []

/-- dict.setdefault(symbol, []): appends a fresh empty entry iff absent
(Python dicts add new keys at the end of the iteration order). -/
def ensureKey (st : HistMap) (s : String) : HistMap :=
  if (findHist st s).isSome then st else st ++ [(s, [])]

/-- In-place mutation of the (unique) entry with the given key. -/
def modifyHist : HistMap → String → (List Sample → List Sample) → HistMap
  | [], _, _ => []
  | (k, h) :: rest, s, f =>
    if k = s then (k, f h) :: rest else (k, h) :: modifyHist rest s f

/-- The truncation after an append (signal_engine lines 67-68):
if len(history) > lookback_period: history.pop(0). -/
def evictOne (L : ℕ) (h : List Sample) : List Sample :=
  if L < h.length then h.tail else h

/-- The body of the update_prices loop for one batch row (signal_engine
lines 57-68): setdefault, append, conditional pop(0). -/
def update_one (L : ℕ) (st : HistMap) (r : Row) : HistMap :=
  modifyHist (ensureKey st r.symbol) r.symbol (fun h => evictOne L (h ++ [r.toSample]))

/-- SignalEngine.update_prices(price_data) with lookback L. -/
def update_prices (L : ℕ) (st : HistMap) (batch : List Row) : HistMap :=
  batch.foldl (update_one L) st

/-- The third-party numeric kernels _analyze_pair calls that are not code of
this repository: pandas Series.corr, LocalQuant.calculate_hedge_ratio (whose
work is np.linalg.lstsq on the two log series), statsmodels coint via
test_cointegration, pandas Series.std, and calculate_half_life (whose formula,
math_engine lines 68-78, is verified separately as calculate_half_life above;
here its float result appears as a value). Each is a pure function of its
inputs — these libraries are deterministic. For corr, hedge_ratio and
coint_pvalue, none models a raised exception, caught by the try/except around
_analyze_pair (np.linalg.lstsq raises, in particular, whenever the two series
have different lengths). For half_life, none models a NaN float (alpha > 1),
which flows onward rather than raising. -/
structure Quant where
  corr : List ℚ → List ℚ → Option ℚ
  hedge_ratio : List ℚ → List ℚ → Option ℚ
  coint_pvalue : List ℚ → List ℚ → Option ℚ
  std : List ℚ → ℚ
  half_life : List ℚ → Option ℚ

/-- TradingSignal (signal_engine lines 10-24). Fields that can be the float
NaN — half_life when alpha > 1, and the edge/confidence computed from it —
are Option ℚ with none for NaN; metadata is flattened into the spread-history
tail and the two latest leg prices. -/
structure TradingSignal where
  pair : String × String
  hedge_ratio : ℚ
  correlation : ℚ
  cointegration_pvalue : ℚ
  half_life : Option ℚ
  z_score : ℚ
  spread_mean : ℚ
  spread_std : ℚ
  signal_type : SignalType
  expected_edge_bps : Option ℚ
  confidence : Option ℚ
  timestamp : ℕ
  meta_spread_tail : List ℚ
  meta_price1 : ℚ
  meta_price2 : ℚ
deriving DecidableEq

/-- The projection PerformanceTracker.record_signal appends to
signals_history (signal_engine lines 30-37). -/
structure PerfRecord where
  timestamp : ℕ
  pair : String × String
  z_score : ℚ
  expected_edge : Option ℚ
  confidence : Option ℚ
deriving DecidableEq

def TradingSignal.toRecord (sg : TradingSignal) : PerfRecord :=
  { timestamp := sg.timestamp, pair := sg.pair, z_score := sg.z_score,
    expected_edge := sg.expected_edge_bps, confidence := sg.confidence }

/-- SignalEngine._determine_signal (signal_engine lines 126-133). -/
def determine_signal (cfg : Config) (z : ℚ) : SignalType :=
  if z > cfg.z_score_entry then SignalType.SHORT_SPREAD
  else if z < -cfg.z_score_entry then SignalType.LONG_SPREAD
  else if |z| < cfg.z_score_exit then SignalType.NEUTRAL
  else SignalType.HOLD

/-- SignalEngine._analyze_pair (signal_engine lines 81-124) for (sym1, sym2),
where ts is this call's datetime.now() value. Returns none exactly when a gate
fails or an exception was caught; on some, the code has also appended the
signal's record to the performance tracker (modelled at scanLoop, which calls
TradingSignal.toRecord on every some result — record_signal runs at line 120,
inside _analyze_pair). The two series have equal length on every path that
reaches the spread: on unequal lengths np.linalg.lstsq raises inside
calculate_hedge_ratio (shape mismatch), i.e. the hedge_ratio oracle returns
none, so the pointwise zipWith is the pandas difference. An empty spread makes
spread.iloc[-1] raise, hence the match on getLast?. -/
def analyze_pair (cfg : Config) (q : Quant) (ts : ℕ) (sym1 sym2 : String)
    (h1 h2 : List Sample) : Option TradingSignal :=
  let p1 := h1.map Sample.price
  let p2 := h2.map Sample.price
  if p1.length < cfg.min_samples ∨ p2.length < cfg.min_samples then none else
  match q.corr p1 p2 with
  | none => none
  | some corr =>
  if |corr| < cfg.min_abs_correlation then none else
  match q.hedge_ratio p1 p2 with
  | none => none
  | some hedge =>
  let spread := List.zipWith (fun a b => b - hedge * a) p1 p2
  match q.coint_pvalue p1 p2 with
  | none => none
  | some pval =>
  if cfg.enable_coint_check ∧ pval > cfg.min_cointegration_pvalue then none else
  let hl := q.half_life spread
  let spread_mean := meanQ spread
  let sstd0 := q.std spread
  let spread_std := if sstd0 = 0 then 1/10^9 else sstd0
  match spread.getLast? with
  | none => none
  | some lastv =>
  let z := (lastv - spread_mean) / spread_std
  let p2last := (p2.getLast?).getD 0
  some {
    pair := (sym1, sym2),
    hedge_ratio := hedge,
    correlation := corr,
    cointegration_pvalue := pval,
    half_life := hl,
    z_score := z,
    spread_mean := spread_mean,
    spread_std := spread_std,
    signal_type := determine_signal cfg z,
    expected_edge_bps := hl.map (fun h => calculate_expected_edge z spread_std p2last h),
    confidence := hl.map (fun h => calculate_confidence pval h spread_std p1.length),
    timestamp := ts,
    meta_spread_tail := spread.drop (spread.length - 30),
    meta_price1 := (p1.getLast?).getD 0,
    meta_price2 := p2last }

/-- All unordered pairs in the scan's iteration order: outer index < inner
index over list(price_history.keys()) (signal_engine lines 72-74). -/
def allPairs : List String → List (String × String)
  | [] => []
  | s :: rest => rest.map (fun t => (s, t)) ++ allPairs rest

/-- The confidence gate of find_cointegrated_pairs line 76: a float comparison
signal.confidence > min_confidence, false when the confidence is NaN (none). -/
def confGate (cfg : Config) (sg : TradingSignal) : Bool :=
  match sg.confidence with
  | some c => decide (cfg.min_confidence < c)
  | none => false

/-- The scan loop of find_cointegrated_pairs (lines 73-77): for each pair in
order, _analyze_pair appends every constructed signal's record to the
performance tracker and the loop keeps those passing the confidence gate.
The accumulator is (kept signals, appended performance records). -/
def scanLoop (cfg : Config) (q : Quant) (clock : String → String → ℕ)
    (st : HistMap) :
    List (String × String) → List TradingSignal × List PerfRecord →
    List TradingSignal × List PerfRecord
  | [], acc => acc
  | (s1, s2) :: rest, (sigs, recs) =>
    match analyze_pair cfg q (clock s1 s2) s1 s2 (histOf st s1) (histOf st s2) with
    | none => scanLoop cfg q clock st rest (sigs, recs)
    | some sg =>
      scanLoop cfg q clock st rest
        (if confGate cfg sg then sigs ++ [sg] else sigs, recs ++ [sg.toRecord])

/-- The sort key signals.sort(key=lambda x: x.expected_edge_bps, reverse=True)
uses, descending. Every signal reaching the sort has passed the confidence
gate and therefore carries a non-NaN edge, so the getD default is never
decisive there. -/
def edgeKey (sg : TradingSignal) : ℚ := sg.expected_edge_bps.getD 0

def edgeGE (a b : TradingSignal) : Prop := edgeKey b ≤ edgeKey a

instance : DecidableRel edgeGE := fun a b =>
  inferInstanceAs (Decidable (edgeKey b ≤ edgeKey a))

instance : IsTotal TradingSignal edgeGE := ⟨fun a b => le_total (edgeKey b) (edgeKey a)⟩

instance : IsTrans TradingSignal edgeGE := ⟨fun _ _ _ h1 h2 => le_trans h2 h1⟩

/-- SignalEngine.find_cointegrated_pairs (signal_engine lines 70-79) together
with the performance-tracker appends the call makes: (ranked top-K signal
list, records appended to performance_tracker.signals_history this scan). -/
def find_cointegrated_pairs (cfg : Config) (q : Quant)
    (clock : String → String → ℕ) (st : HistMap) :
    List TradingSignal × List PerfRecord :=
  let res := scanLoop cfg q clock st (allPairs (st.map Prod.fst)) ([], [])
  ((List.insertionSort edgeGE res.1).take cfg.max_pairs_to_track, res.2)

/-- np.mean over floats that may be NaN: none (NaN) when some entry is NaN,
else the exact arithmetic mean. -/
def npMean (l : List (Option ℚ)) : Option ℚ :=
  if l.all Option.isSome then some ((l.map (fun x => x.getD 0)).sum / l.length)
  else none

/-- The dict PerformanceTracker.calculate_metrics returns (signal_engine
lines 39-46). -/
structure Metrics where
  total_signals : ℕ
  avg_confidence : Option ℚ
  avg_expected_edge : Option ℚ
deriving DecidableEq

/-- PerformanceTracker.calculate_metrics: the fixed zero dict on an empty
log, otherwise the count and the np.mean of the recorded values. -/
def calculate_metrics (log : List PerfRecord) : Metrics :=
  if log.isEmpty then
    { total_signals := 0, avg_confidence := some 0, avg_expected_edge := some 0 }
  else
    { total_signals := log.length,
      avg_confidence := npMean (log.map PerfRecord.confidence),
      avg_expected_edge := npMean (log.map PerfRecord.expected_edge) }

/-- All fields of a TradingSignal except the wall-clock timestamp. -/
def TradingSignal.stripTime (sg : TradingSignal) : TradingSignal :=
  { sg with timestamp := 0 }

/-- All fields of a PerfRecord except the wall-clock timestamp. -/
def PerfRecord.stripTime (r : PerfRecord) : PerfRecord :=
  { r with timestamp := 0 }

/-! ### Concrete scan scenarios used by the C2 and C6 theorems -/

/-- Build a price history whose samples carry the given prices. -/
def mkHist (ps : List ℚ) : List Sample :=
  ps.map (fun p => { timestamp := 0, price := p, volume := 0, funding := 0 })

/-- 30 prices 1, 2, ..., 30. -/
def p1C2 : List ℚ := (List.range 30).map (fun (k : ℕ) => (k : ℚ) + 1)

/-- 30 prices 2, 4, ..., 60: exactly twice p1C2. -/
def p2C2 : List ℚ := (List.range 30).map (fun (k : ℕ) => 2 * ((k : ℚ) + 1))

def stC2 : HistMap := [(("A" : String), mkHist p1C2), (("B" : String), mkHist p2C2)]

/-- Oracle values for the C2 scenario, plausible for the third-party kernels
on (p1C2, p2C2): p2 is exactly 2 * p1, so the correlation is exactly 1 and the
log-log OLS slope is exactly 1; the pair is perfectly cointegrated, p-value at
the 0.05 gate boundary; the spread is then p1C2 itself, whose sample std is
√77.5 ≈ 8.803 (any value ≥ 0.04 yields the same control flow) and whose AR(1)
coefficient is negative (increasing series), so half-life is exactly 30.
The C2 refutation is robust to these values: any oracle that passes the gates
with resulting confidence ≤ 0.5 exhibits it. -/
def qC2 : Quant :=
  { corr := fun _ _ => some 1,
    hedge_ratio := fun _ _ => some 1,
    coint_pvalue := fun _ _ => some (1/20),
    std := fun _ => 88/10,
    half_life := fun _ => some 30 }

/-- 30 prices 100 + k/100, a slow ramp. -/
def p1C6 : List ℚ := (List.range 30).map (fun (k : ℕ) => 100 + (k : ℚ) / 100)

/-- p1C6 plus 1/25 on odd indices: the spread at hedge 1 alternates 0, 1/25. -/
def p2C6 : List ℚ :=
  (List.range 30).map (fun (k : ℕ) => 100 + (k : ℚ) / 100 + (if k % 2 = 1 then (1 : ℚ)/25 else 0))

def stC6 : HistMap := [(("A" : String), mkHist p1C6), (("B" : String), mkHist p2C6)]

/-- Oracle values for the C6 scenario, plausible for the kernels on
(p1C6, p2C6): the two series differ by a tiny alternating perturbation, so
correlation ≈ 0.9999 and log-log slope ≈ 1; they are strongly cointegrated
(p-value 0.01); the spread alternates 0, 1/25, with sample std
√(3/7250) ≈ 0.020344 ≈ 1017/50000 and AR(1) coefficient exactly 1, for which
the float pipeline returns half-life exactly 0.0 (-log 2 / log(0) = 0.0). -/
def qC6 : Quant :=
  { corr := fun _ _ => some (9999/10000),
    hedge_ratio := fun _ _ => some 1,
    coint_pvalue := fun _ _ => some (1/100),
    std := fun _ => 1017/50000,
    half_life := fun _ => some 0 }

/-- Two batch rows carrying the same symbol, for the C8 counterexample. -/
def rowA1 : Row :=
  { symbol := "A", timestamp := 0, price := 1, volume := none, funding_rate := none }

def rowA2 : Row :=
  { symbol := "A", timestamp := 1, price := 2, volume := none, funding_rate := none }

/-- A concrete performance record, for the C10 witness. -/
def recC10 : PerfRecord :=
  { timestamp := 0, pair := (("A" : String), ("B" : String)), z_score := 1,
    expected_edge := some 2, confidence := some (3/4) }

/-! ### Theorems for C1 and C3 -/

/-- C1, counterexample: fetch_all_prices does omit a requested symbol. When the
HTTP fallback for the symbol raises on every retry attempt and no other source
has it, the returned list contains no row for that symbol at all, refuting
"the aggregator never omits a requested symbol from its output". -/
theorem fetch_all_prices_omits_symbol :
    ¬ ∃ r ∈ fetch_all_prices cfgC1 envAllRaise [("BTC-USD-PERP" : String)],
        r.symbol = ("BTC-USD-PERP" : String) := by
  decide

theorem alchemyRow_symbol {cfg : FetchCfg} {e : SymEnv} {s : String} {r : PriceRow}
    (h : alchemyRow cfg e s = some r) : r.symbol = s := by
  cases hq : e.alchemyQuote with
  | none => simp [alchemyRow, hq] at h
  | some q =>
    simp only [alchemyRow, hq] at h
    split at h
    · split at h
      · injection h with h2
        rw [← h2]
      · exact absurd h (by simp)
    · exact absurd h (by simp)

theorem not_mem_selected {cfg : FetchCfg} {env : String → SymEnv}
    {symbols : List String} {s : String}
    (h : alchemyRow cfg (env s) s = none) : s ∉ selectedSyms cfg env symbols := by
  intro hmem
  obtain ⟨r, hr, hrs⟩ := List.mem_map.mp hmem
  obtain ⟨t, _, hrt⟩ := List.mem_filterMap.mp hr
  have hts : t = s := (alchemyRow_symbol hrt).symm.trans hrs
  rw [hts, h] at hrt
  exact absurd hrt (by simp)

theorem cacheRow_some (cfg : FetchCfg) {e : SymEnv} (s : String) {px : ℚ}
    (h : e.wsCached = some px) :
    ∃ r, cacheRow cfg e s = some r ∧ r.symbol = s := by
  unfold cacheRow
  rw [h]
  exact ⟨_, rfl, rfl⟩

theorem fetch_price_some (cfg : FetchCfg) {e : SymEnv} (s : String)
    (h : e.httpResp ≠ none) :
    ∃ r, fetch_price cfg e s = some r ∧ r.symbol = s := by
  unfold fetch_price
  cases hr : e.httpResp with
  | none => exact absurd hr h
  | some mid => exact ⟨_, rfl, rfl⟩

theorem fetch_price_default {cfg : FetchCfg} {e : SymEnv} {s : String}
    (h : e.httpResp = some none ∨ e.httpResp = some (some 0))
    (hoff : cfg.enableSynth = false) :
    fetch_price cfg e s =
      some { symbol := s, price := 100, source := Source.hyperliquid_http } := by
  unfold fetch_price
  rcases h with h | h <;> rw [h] <;> simp [hoff]

theorem fetch_price_synth (cfg : FetchCfg) {e : SymEnv} (s : String)
    (h : e.httpResp = some none ∨ e.httpResp = some (some 0))
    (hon : cfg.enableSynth = true) :
    ∃ r, fetch_price cfg e s = some r ∧ r.symbol = s ∧ 0 < r.price := by
  refine ⟨{ symbol := s, price := max (1/10) ((e.wsCached.getD 100) * (1 + e.gauss)),
            source := Source.hyperliquid_http }, ?_, rfl, ?_⟩
  · unfold fetch_price
    rcases h with h | h <;> rw [h] <;> simp [hon]
  · exact lt_of_lt_of_le (by norm_num) (le_max_left _ _)

theorem mem_missingList {cfg : FetchCfg} {env : String → SymEnv}
    {symbols : List String} {s : String} (hs : s ∈ symbols)
    (hsel : s ∉ selectedSyms cfg env symbols) (hc : (env s).wsCached = none) :
    s ∈ symbols.filter (fun t =>
      decide (t ∉ selectedSyms cfg env symbols) && decide ((env t).wsCached = none)) :=
  List.mem_filter.mpr ⟨hs, by simp [hsel, hc]⟩

/-- C1, amended: provided every HTTP fallback fetch returns a response (a
source may still fail by answering with no, or a zero, mid), fetch_all_prices
returns at least one row for every requested symbol; for a symbol on which
every source fails softly, the row's price is the fixed default 100.0 when
synthetic generation is disabled, and positive (≥ 0.1) when it is enabled.
The unamended claim fails only when the HTTP fetch itself raises on all
attempts, in which case the symbol is omitted (see the counterexample). -/
theorem fetch_all_prices_total (cfg : FetchCfg) (env : String → SymEnv)
    (symbols : List String) (s : String) (hs : s ∈ symbols) :
    ((env s).httpResp ≠ none →
      ∃ r ∈ fetch_all_prices cfg env symbols, r.symbol = s) ∧
    (allSourcesSoftFail cfg env s →
      (cfg.enableSynth = false →
        ({ symbol := s, price := 100, source := Source.hyperliquid_http } : PriceRow)
          ∈ fetch_all_prices cfg env symbols) ∧
      (cfg.enableSynth = true →
        ∃ r ∈ fetch_all_prices cfg env symbols, r.symbol = s ∧ 0 < r.price)) := by
  constructor
  · intro hhttp
    by_cases hself : s ∈ selectedSyms cfg env symbols
    · obtain ⟨r, hr, hrs⟩ := List.mem_map.mp hself
      refine ⟨r, ?_, hrs⟩
      exact List.mem_append_left _ (List.mem_append_left _ hr)
    · cases hcache : (env s).wsCached with
      | some px =>
        obtain ⟨r, hr, hrs⟩ := cacheRow_some cfg s hcache
        refine ⟨r, ?_, hrs⟩
        refine List.mem_append_left _ (List.mem_append_right _ ?_)
        exact List.mem_filterMap.mpr ⟨s, hs, by rw [if_neg hself]; exact hr⟩
      | none =>
        obtain ⟨r, hr, hrs⟩ := fetch_price_some cfg s hhttp
        refine ⟨r, ?_, hrs⟩
        refine List.mem_append_right _ ?_
        exact List.mem_filterMap.mpr ⟨s, mem_missingList hs hself hcache, hr⟩
  · rintro ⟨halcfail, hcache, hresp⟩
    have hself : s ∉ selectedSyms cfg env symbols := not_mem_selected halcfail
    have hmiss := mem_missingList hs hself hcache
    constructor
    · intro hoff
      refine List.mem_append_right _ ?_
      exact List.mem_filterMap.mpr ⟨s, hmiss, fetch_price_default hresp hoff⟩
    · intro hon
      obtain ⟨r, hr, hrs, hpos⟩ := fetch_price_synth cfg s hresp hon
      refine ⟨r, ?_, hrs, hpos⟩
      refine List.mem_append_right _ ?_
      exact List.mem_filterMap.mpr ⟨s, hmiss, hr⟩

/-- Witness for the amended C1 theorem at a concrete input: one symbol, alchemy
off, empty WS cache, an HTTP response that contains no mid, synthetic prices
disabled — the output contains the fixed default row (symbol, 100). -/
theorem fetch_all_prices_total_witness :
    ({ symbol := ("X" : String), price := 100, source := Source.hyperliquid_http } : PriceRow)
      ∈ fetch_all_prices cfgC1
        (fun _ => { alchemyQuote := none, wsCached := none,
                    httpResp := some none, gauss := 0 })
        [("X" : String)] :=
  ((fetch_all_prices_total cfgC1
      (fun _ => { alchemyQuote := none, wsCached := none,
                  httpResp := some none, gauss := 0 })
      [("X" : String)] ("X" : String) (by decide)).2
    (by refine ⟨?_, rfl, Or.inl rfl⟩; decide)).1 rfl

/-- C3, counterexample: the reconnect backoff does not reset to 1 after a
successful reconnect. Iteration i's slept delay (index i of wsDelays) is the
sleep between that iteration's end and the next retry, so under the claimed
"reset to 1 s after any successful reconnect" an iteration that reconnected
successfully and then lost the stream would sleep 1 s. In the code no reset
assignment exists: with iteration 0 failing, iteration 1 reconnecting
successfully and then losing the stream, and iteration 2 failing, the slept
delays are 1, 2, 4 — the delay ending the successfully reconnected
iteration 1 is the already-doubled 2 s, not 1 s. -/
theorem wsDelays_no_reset :
    ¬ ∀ (t : List WsIter) (i : ℕ), t.get? i = some { reconnected := true } →
        (wsDelays t).get? i = some 1 := by
  intro h
  have h2 := h [{ reconnected := false }, { reconnected := true },
    { reconnected := false }] 1 (by decide)
  rw [show wsDelays [{ reconnected := false }, { reconnected := true },
    { reconnected := false }] = [1, 2, 4] from by decide] at h2
  exact absurd h2 (by decide)

theorem wsReaderRun_get (t : List WsIter) :
    ∀ (b i : ℕ), b ≤ 30 → i < t.length →
      (wsReaderRun t b).get? i = some (min (b * 2 ^ i) 30) := by
  induction t with
  | nil => intro b i _ hi; exact absurd hi (by simp)
  | cons x rest ih =>
    intro b i hb hi
    cases i with
    | zero =>
      simp [wsReaderRun, Nat.min_eq_left, pow_zero, Nat.mul_one]
      omega
    | succ i =>
      have hb' : min (b * 2) 30 ≤ 30 := min_le_right _ _
      have hi' : i < rest.length := by simpa using hi
      have hstep := ih (min (b * 2) 30) i hb' hi'
      have hpow : b * 2 ^ (i + 1) = b * 2 * 2 ^ i := by ring
      have hkey : min (min (b * 2) 30 * 2 ^ i) 30 = min (b * 2 ^ (i + 1)) 30 := by
        rcases le_total (b * 2) 30 with h | h
        · rw [min_eq_left h, hpow]
        · have h30 : (30 : ℕ) ≤ 30 * 2 ^ i :=
            Nat.le_mul_of_pos_right 30 (by positivity)
          have hbig : (30 : ℕ) ≤ b * 2 ^ (i + 1) := by
            rw [hpow]
            exact le_trans h (Nat.le_mul_of_pos_right _ (by positivity))
          rw [min_eq_right h, min_eq_right h30, min_eq_right hbig]
      calc (wsReaderRun (x :: rest) b).get? (i + 1)
          = (wsReaderRun rest (min (b * 2) 30)).get? i := rfl
        _ = some (min (min (b * 2) 30 * 2 ^ i) 30) := hstep
        _ = some (min (b * 2 ^ (i + 1)) 30) := by rw [hkey]

/-- C3, amended: the delay slept before retry i is min(2^i, 30) seconds
whatever the iteration outcomes: it starts at 1 s, doubles after every
iteration — failed, cleanly closed, or containing a successful reconnect — is
capped at 30 s, and never resets for the lifetime of the reader task. -/
theorem wsDelays_formula (t : List WsIter) (i : ℕ) (hi : i < t.length) :
    (wsDelays t).get? i = some (min (2 ^ i) 30) := by
  have h := wsReaderRun_get t 1 i (by norm_num) hi
  rwa [one_mul] at h

/-- Witness for the amended C3 theorem at a concrete trace. -/
theorem wsDelays_formula_witness :
    (wsDelays [{ reconnected := false }, { reconnected := false }]).get? 1 =
      some (min (2 ^ 1) 30) :=
  wsDelays_formula [{ reconnected := false }, { reconnected := false }] 1 (by decide)

/-! ### Theorems for C4 (half-life), C5 (confidence), C9 (z-score) -/

/-- C4, counterexample: the spread [1, -1, 1] is finite with nonzero sample
variance, its regression coefficient is alpha = 2 > 1, so np.log(1 - 2) is NaN
and calculate_half_life returns NaN (none) — not a value in [0, 30]. -/
theorem half_life_nan_example :
    calculate_half_life [1, -1, 1] = none ∧ sampleVar [1, -1, 1] ≠ 0 := by
  constructor
  · have ha : alphaOf [1, -1, 1] = 2 := by
      norm_num [alphaOf, spreadLag, spreadDiff, List.dropLast, List.zip,
        List.zipWith, List.sum_cons, List.sum_nil]
    simp only [calculate_half_life, ha]
    norm_num
  · norm_num [sampleVar, meanQ, List.sum_cons, List.sum_nil]

/-- C4, amended: whenever the decay coefficient alpha computed from the spread
is at most 1, calculate_half_life returns a value in [0, 30]: the clamped
formula for alpha in (0, 1), exactly 0 at alpha = 1, and 30 for alpha ≤ 0.
For alpha > 1 the float pipeline yields NaN (see the counterexample), so the
unconditional claim fails. -/
theorem half_life_range (s : List ℚ) (h : alphaOf s ≤ 1) :
    ∃ hl : ℝ, calculate_half_life s = some hl ∧ 0 ≤ hl ∧ hl ≤ 30 := by
  simp only [calculate_half_life]
  by_cases hpos : 0 < alphaOf s
  · by_cases hlt : alphaOf s < 1
    · refine ⟨_, by rw [if_pos hpos, if_pos hlt], ?_, min_le_right _ _⟩
      have h1 : (0 : ℝ) < 1 - (alphaOf s : ℝ) := by
        have hc : (alphaOf s : ℝ) < 1 := by exact_mod_cast hlt
        linarith
      have h2 : (1 : ℝ) - (alphaOf s : ℝ) < 1 := by
        have hc : (0 : ℝ) < (alphaOf s : ℝ) := by exact_mod_cast hpos
        linarith
      have hlog : Real.log (1 - (alphaOf s : ℝ)) < 0 := Real.log_neg h1 h2
      have hlog2 : 0 < Real.log 2 := Real.log_pos (by norm_num)
      have hq : 0 < -Real.log 2 / Real.log (1 - (alphaOf s : ℝ)) :=
        div_pos_of_neg_of_neg (by linarith) hlog
      exact le_min (le_of_lt hq) (by norm_num)
    · have heq : alphaOf s = 1 := le_antisymm h (not_lt.mp hlt)
      exact ⟨0, by rw [if_pos hpos, if_neg hlt, if_pos heq], le_refl 0, by norm_num⟩
  · exact ⟨30, by rw [if_neg hpos], by norm_num, le_refl 30⟩

/-- Witness for the amended C4 theorem: the spread [1, 2, 1] has alpha = 1/5. -/
theorem half_life_range_witness :
    ∃ hl : ℝ, calculate_half_life [1, 2, 1] = some hl ∧ 0 ≤ hl ∧ hl ≤ 30 :=
  half_life_range [1, 2, 1] (by
    norm_num [alphaOf, spreadLag, spreadDiff, List.dropLast, List.zip,
      List.zipWith, List.sum_cons, List.sum_nil])

/-- C5, counterexample: at p-value 0 (inside [0,1]), half-life 1/2 — a value
the scan can produce: the spread [4, 1] has alpha = 3/4 and calculate_half_life
returns exactly 1/2 — spread-std 1/50 and n = 200, calculate_confidence
returns 583/580 > 1, so the value does not always lie in [0, 1]. -/
theorem confidence_above_one :
    calculate_confidence 0 (1/2) (1/50) 200 = 583/580 ∧
    ¬ calculate_confidence 0 (1/2) (1/50) 200 ≤ 1 ∧
    calculate_half_life [4, 1] = some ((1/2 : ℝ)) := by
  have hc : calculate_confidence 0 (1/2) (1/50) 200 = 583/580 := by
    norm_num [calculate_confidence, max_def, min_def]
  refine ⟨hc, by rw [hc]; norm_num, ?_⟩
  have ha : alphaOf [4, 1] = 3/4 := by
    norm_num [alphaOf, spreadLag, spreadDiff, List.dropLast, List.zip,
      List.zipWith, List.sum_cons, List.sum_nil]
  simp only [calculate_half_life, ha]
  rw [if_pos (by norm_num), if_pos (by norm_num)]
  have hcast : ((1 : ℝ) - ((3/4 : ℚ) : ℝ)) = 1/4 := by norm_num
  rw [hcast]
  have h4 : Real.log (1/4) = -(2 * Real.log 2) := by
    rw [show (1/4 : ℝ) = ((2 : ℝ) ^ 2)⁻¹ by norm_num, Real.log_inv, Real.log_pow]
    push_cast
    ring
  rw [h4]
  have hl2 : Real.log 2 ≠ 0 := ne_of_gt (Real.log_pos (by norm_num))
  have hv : -Real.log 2 / -(2 * Real.log 2) = (1/2 : ℝ) := by
    rw [neg_div_neg_eq, div_eq_iff (mul_ne_zero two_ne_zero hl2)]
    ring
  rw [hv, min_eq_left (by norm_num)]

/-- C5, amended: for p-value in [0, 1] the returned value equals the claimed
formula (the max(0, ·) on the cointegration term is the identity there); for
nonnegative half-life it lies in [0, 293/290] — it can exceed 1 exactly in the
small half-life regime, see the counterexample — and it lies in [0, 1]
whenever half_life ≥ 1. -/
theorem confidence_formula_bounds (pval hl sstd : ℚ) (n : ℕ)
    (h0 : 0 ≤ pval) (h1 : pval ≤ 1) (hhl : 0 ≤ hl) :
    calculate_confidence pval hl sstd n =
      (1 - pval) * (4/10) + (1 - (min hl 30 - 1) / 29) * (3/10)
        + max 0 (1 - |sstd - 1/50| / (1/50)) * (2/10)
        + min 1 ((n : ℚ) / 200) * (1/10) ∧
    0 ≤ calculate_confidence pval hl sstd n ∧
    calculate_confidence pval hl sstd n ≤ 293/290 ∧
    (1 ≤ hl → calculate_confidence pval hl sstd n ≤ 1) := by
  simp only [calculate_confidence]
  have hmax : max 0 (1 - pval) = 1 - pval := max_eq_right (by linarith)
  have hcle : (1 : ℚ) - pval ≤ 1 := by linarith
  have hc0 : (0 : ℚ) ≤ 1 - pval := by linarith
  have hm0 : 0 ≤ min hl 30 := le_min hhl (by norm_num)
  have hm30 : min hl 30 ≤ 30 := min_le_right _ _
  have hH0 : 0 ≤ 1 - (min hl 30 - 1) / 29 := by
    have hd : (min hl 30 - 1) / 29 ≤ 1 := by
      rw [div_le_one (by norm_num)]
      linarith
    linarith
  have hH30 : 1 - (min hl 30 - 1) / 29 ≤ 30/29 := by
    have hd : (-1 : ℚ)/29 ≤ (min hl 30 - 1) / 29 :=
      (div_le_div_iff_of_pos_right (by norm_num)).mpr (by linarith)
    have hc : ((-1 : ℚ))/29 = -(1/29) := by norm_num
    rw [hc] at hd
    linarith
  have hV0 : (0 : ℚ) ≤ max 0 (1 - |sstd - 1/50| / (1/50)) := le_max_left _ _
  have hV1 : max 0 (1 - |sstd - 1/50| / (1/50)) ≤ 1 :=
    max_le (by norm_num) (sub_le_self _ (div_nonneg (abs_nonneg _) (by norm_num)))
  have hS0 : (0 : ℚ) ≤ min 1 ((n : ℚ) / 200) :=
    le_min (by norm_num) (div_nonneg (Nat.cast_nonneg n) (by norm_num))
  have hS1 : min 1 ((n : ℚ) / 200) ≤ 1 := min_le_left _ _
  refine ⟨by rw [hmax], ?_, ?_, ?_⟩
  · rw [hmax]
    nlinarith
  · rw [hmax]
    nlinarith
  · intro hge
    have hm1 : 1 ≤ min hl 30 := le_min hge (by norm_num)
    have hH1 : 1 - (min hl 30 - 1) / 29 ≤ 1 := by
      have hd : (0 : ℚ) ≤ (min hl 30 - 1) / 29 := div_nonneg (by linarith) (by norm_num)
      linarith
    rw [hmax]
    nlinarith

/-- Witness for the amended C5 theorem at a concrete in-range input. -/
theorem confidence_formula_bounds_witness :
    0 ≤ calculate_confidence (1/2) 5 (1/50) 100 ∧
    calculate_confidence (1/2) 5 (1/50) 100 ≤ 1 :=
  ⟨(confidence_formula_bounds (1/2) 5 (1/50) 100 (by norm_num) (by norm_num)
      (by norm_num)).2.1,
   (confidence_formula_bounds (1/2) 5 (1/50) 100 (by norm_num) (by norm_num)
      (by norm_num)).2.2.2 (by norm_num)⟩

theorem sampleVar_nonneg (l : List ℚ) : 0 ≤ sampleVar l := by
  rcases l with _ | ⟨x, xs⟩
  · norm_num [sampleVar]
  · apply div_nonneg
    · apply List.sum_nonneg
      intro y hy
      obtain ⟨z, _, rfl⟩ := List.mem_map.mp hy
      positivity
    · have hc : (1 : ℚ) ≤ ((x :: xs).length : ℚ) := by
        exact_mod_cast Nat.succ_le_succ (Nat.zero_le xs.length)
      linarith

/-- C9, counterexample: no fixed positive epsilon makes the scan's z-score
equal to (last - mean) / max(std, eps): for any eps the spread
[q, 0, -q] with 0 < q < eps has sample std exactly q, the code divides by q
itself (Python `or` only replaces an exactly-zero std), giving z = -1, while
the claimed formula divides by eps, giving -q/eps ≠ -1. -/
theorem zOfSpread_not_max_form :
    ¬ ∃ eps : ℝ, 0 < eps ∧ ∀ s : List ℚ, zOfSpread s = zSpecFormula eps s := by
  rintro ⟨eps, heps, hall⟩
  obtain ⟨q, hq0, hqe⟩ := exists_rat_btwn heps
  have hq0Q : (0 : ℚ) < q := by exact_mod_cast hq0
  have hqne : q ≠ 0 := ne_of_gt hq0Q
  have hmean : meanQ [q, 0, -q] = 0 := by
    simp [meanQ]
  have hvar : sampleVar [q, 0, -q] = q ^ 2 := by
    simp [sampleVar, hmean]
    ring
  have hstd : stdR [q, 0, -q] = (q : ℝ) := by
    rw [stdR, hvar]
    push_cast
    exact Real.sqrt_sq (le_of_lt hq0)
  have hlast : ([q, 0, -q] : List ℚ).getLast?.getD 0 = -q := rfl
  have hvne : sampleVar [q, 0, -q] ≠ 0 := by
    rw [hvar]
    exact pow_ne_zero 2 hqne
  have hqR : (q : ℝ) ≠ 0 := by exact_mod_cast hqne
  have hz : zOfSpread [q, 0, -q] = -1 := by
    rw [zOfSpread, zDivisor, if_neg hvne, hstd, hmean, hlast]
    push_cast
    rw [sub_zero, neg_div, div_self hqR]
  have hspec : zSpecFormula eps [q, 0, -q] = -(q : ℝ) / eps := by
    rw [zSpecFormula, hstd, hmean, hlast]
    rw [max_eq_right (le_of_lt hqe)]
    push_cast
    rw [sub_zero]
  have heq := hall [q, 0, -q]
  rw [hz, hspec] at heq
  have hqeps : (q : ℝ) = eps := by
    have hene : eps ≠ 0 := ne_of_gt heps
    field_simp at heq
    linarith
  exact absurd hqeps (ne_of_lt hqe)

/-- C9, amended: z equals (last - mean) divided by d, where d is the std if
that is nonzero and 1e-9 otherwise; d is always positive — so the division is
never by zero — and d agrees with max(std, 1e-9) whenever std = 0 or
std ≥ 1e-9; for 0 < std < 1e-9 the code divides by the tiny std itself (see
the counterexample). -/
theorem zOfSpread_divisor (s : List ℚ) :
    0 < zDivisor s ∧
    zOfSpread s =
      (((s.getLast?.getD 0 : ℚ) : ℝ) - ((meanQ s : ℚ) : ℝ)) / zDivisor s ∧
    (sampleVar s = 0 ∨ (1 : ℝ)/10^9 ≤ stdR s → zDivisor s = max (stdR s) (1/10^9)) := by
  refine ⟨?_, rfl, ?_⟩
  · unfold zDivisor
    by_cases h : sampleVar s = 0
    · rw [if_pos h]
      norm_num
    · rw [if_neg h]
      have hnn : 0 ≤ sampleVar s := sampleVar_nonneg s
      have hpos : (0 : ℝ) < ((sampleVar s : ℚ) : ℝ) := by
        exact_mod_cast lt_of_le_of_ne hnn (Ne.symm h)
      exact Real.sqrt_pos.mpr hpos
  · intro hc
    rcases hc with h | h
    · have hs0 : stdR s = 0 := by
        rw [stdR, h]
        push_cast
        exact Real.sqrt_zero
      rw [zDivisor, if_pos h, hs0, max_eq_right (by norm_num)]
    · by_cases h0 : sampleVar s = 0
      · have hs0 : stdR s = 0 := by
          rw [stdR, h0]
          push_cast
          exact Real.sqrt_zero
        rw [zDivisor, if_pos h0, hs0, max_eq_right (by norm_num)]
      · rw [zDivisor, if_neg h0, max_eq_left h]

/-- Witness for the amended C9 theorem at the concrete spread [1, 2, 3], whose
sample std is exactly 1. -/
theorem zOfSpread_divisor_witness :
    0 < zDivisor [1, 2, 3] ∧ zDivisor [1, 2, 3] = max (stdR [1, 2, 3]) (1/10^9) :=
  ⟨(zOfSpread_divisor [1, 2, 3]).1,
   (zOfSpread_divisor [1, 2, 3]).2.2 (Or.inr (by
      have hv : sampleVar [1, 2, 3] = 1 := by
        norm_num [sampleVar, meanQ, List.sum_cons, List.sum_nil]
      rw [stdR, hv]
      push_cast
      rw [Real.sqrt_one]
      norm_num))⟩

/-! ### Theorems for C2 and C7 (scan loop, ranking, performance records) -/

theorem scanLoop_recs (cfg : Config) (q : Quant) (clock : String → String → ℕ)
    (st : HistMap) :
    ∀ (pairs : List (String × String)) (sigs : List TradingSignal)
      (recs : List PerfRecord),
      (scanLoop cfg q clock st pairs (sigs, recs)).2 =
        recs ++ pairs.filterMap (fun pr =>
          (analyze_pair cfg q (clock pr.1 pr.2) pr.1 pr.2
            (histOf st pr.1) (histOf st pr.2)).map TradingSignal.toRecord) := by
  intro pairs
  induction pairs with
  | nil =>
    intro sigs recs
    simp [scanLoop]
  | cons pr rest ih =>
    intro sigs recs
    obtain ⟨s1, s2⟩ := pr
    simp only [scanLoop]
    cases h : analyze_pair cfg q (clock s1 s2) s1 s2 (histOf st s1) (histOf st s2) with
    | none =>
      rw [ih]
      simp [List.filterMap_cons, h]
    | some sg =>
      rw [ih]
      simp [List.filterMap_cons, h]

/-- C2, amended: a signal's record is appended to the performance tracker
exactly when its pair passes the gates up to signal construction — history
length, correlation, cointegration p-value (when enabled), and no numerical
failure — regardless of the confidence gate and of the top-K cut: the records
a scan appends are exactly the _analyze_pair successes, in pair order
(record_signal runs inside _analyze_pair at line 120, before the caller's
confidence test at line 76). -/
theorem records_iff_constructed (cfg : Config) (q : Quant)
    (clock : String → String → ℕ) (st : HistMap) :
    (find_cointegrated_pairs cfg q clock st).2 =
      (allPairs (st.map Prod.fst)).filterMap (fun pr =>
        (analyze_pair cfg q (clock pr.1 pr.2) pr.1 pr.2
          (histOf st pr.1) (histOf st pr.2)).map TradingSignal.toRecord) := by
  simp only [find_cointegrated_pairs]
  simpa using scanLoop_recs cfg q clock st (allPairs (st.map Prod.fst)) [] []

theorem scanLoop_sigs_all (cfg : Config) (q : Quant) (clock : String → String → ℕ)
    (st : HistMap) :
    ∀ (pairs : List (String × String)) (sigs : List TradingSignal)
      (recs : List PerfRecord),
      sigs.all (confGate cfg) = true →
      (scanLoop cfg q clock st pairs (sigs, recs)).1.all (confGate cfg) = true := by
  intro pairs
  induction pairs with
  | nil =>
    intro sigs recs h
    simpa [scanLoop] using h
  | cons pr rest ih =>
    intro sigs recs h
    obtain ⟨s1, s2⟩ := pr
    simp only [scanLoop]
    cases ha : analyze_pair cfg q (clock s1 s2) s1 s2 (histOf st s1) (histOf st s2) with
    | none => exact ih sigs recs h
    | some sg =>
      dsimp only
      by_cases hg : confGate cfg sg = true
      · rw [if_pos hg]
        refine ih _ _ ?_
        simp [List.all_append, h, hg]
      · rw [if_neg hg]
        exact ih _ _ h

/-- C7: every signal returned by find_cointegrated_pairs passed the strict
confidence gate (signal.confidence > min_confidence, default 1/2); the
returned list is sorted in descending order of expected_edge_bps; and its
length is at most max_pairs_to_track (default 10). -/
theorem find_pairs_ranked (cfg : Config) (q : Quant)
    (clock : String → String → ℕ) (st : HistMap) :
    (find_cointegrated_pairs cfg q clock st).1.all (confGate cfg) = true ∧
    List.Sorted edgeGE (find_cointegrated_pairs cfg q clock st).1 ∧
    (find_cointegrated_pairs cfg q clock st).1.length ≤ cfg.max_pairs_to_track ∧
    defaultConfig.min_confidence = 1/2 ∧ defaultConfig.max_pairs_to_track = 10 := by
  have hbase := scanLoop_sigs_all cfg q clock st (allPairs (st.map Prod.fst)) [] [] rfl
  refine ⟨?_, ?_, ?_, rfl, rfl⟩
  · simp only [find_cointegrated_pairs]
    rw [List.all_eq_true]
    intro sg hsg
    have hmem2 : sg ∈ (scanLoop cfg q clock st (allPairs (st.map Prod.fst)) ([], [])).1 :=
      (List.mem_insertionSort edgeGE).mp (List.mem_of_mem_take hsg)
    exact List.all_eq_true.mp hbase sg hmem2
  · simp only [find_cointegrated_pairs]
    exact (List.sorted_insertionSort edgeGE _).sublist (List.take_sublist _ _)
  · simp only [find_cointegrated_pairs]
    exact List.length_take_le _ _

/-! ### Theorems for C6 (determinism up to timestamps) -/

theorem analyze_pair_shift (cfg : Config) (q : Quant) (ts : ℕ) (s1 s2 : String)
    (h1 h2 : List Sample) :
    analyze_pair cfg q ts s1 s2 h1 h2 =
      (analyze_pair cfg q 0 s1 s2 h1 h2).map
        (fun sg => { sg with timestamp := ts }) := by
  unfold analyze_pair
  dsimp only
  repeat' split <;> try rfl

theorem analyze_pair_timestamp (cfg : Config) (q : Quant) (ts : ℕ)
    (s1 s2 : String) (h1 h2 : List Sample) (sg : TradingSignal)
    (h : analyze_pair cfg q ts s1 s2 h1 h2 = some sg) : sg.timestamp = ts := by
  rw [analyze_pair_shift] at h
  cases h0 : analyze_pair cfg q 0 s1 s2 h1 h2 with
  | none => rw [h0] at h; exact absurd h (by simp)
  | some sg0 =>
    rw [h0] at h
    simp only [Option.map_some'] at h
    injection h with h2
    rw [← h2]

theorem stripTime_shift (sg : TradingSignal) (ts : ℕ) :
    ({ sg with timestamp := ts } : TradingSignal).stripTime = sg.stripTime := rfl

theorem toRecord_shift (sg : TradingSignal) (ts : ℕ) :
    ({ sg with timestamp := ts } : TradingSignal).toRecord =
      { sg.toRecord with timestamp := ts } := rfl

theorem recStrip_shift (r : PerfRecord) (ts : ℕ) :
    ({ r with timestamp := ts } : PerfRecord).stripTime = r.stripTime := rfl

theorem confGate_shift (cfg : Config) (sg : TradingSignal) (ts : ℕ) :
    confGate cfg { sg with timestamp := ts } = confGate cfg sg := rfl

theorem scanLoop_strip (cfg : Config) (q : Quant)
    (c1 c2 : String → String → ℕ) (st : HistMap) :
    ∀ (pairs : List (String × String)) (sigs1 sigs2 : List TradingSignal)
      (recs1 recs2 : List PerfRecord),
      sigs1.map TradingSignal.stripTime = sigs2.map TradingSignal.stripTime →
      recs1.map PerfRecord.stripTime = recs2.map PerfRecord.stripTime →
      ((scanLoop cfg q c1 st pairs (sigs1, recs1)).1.map TradingSignal.stripTime =
        (scanLoop cfg q c2 st pairs (sigs2, recs2)).1.map TradingSignal.stripTime) ∧
      ((scanLoop cfg q c1 st pairs (sigs1, recs1)).2.map PerfRecord.stripTime =
        (scanLoop cfg q c2 st pairs (sigs2, recs2)).2.map PerfRecord.stripTime) := by
  intro pairs
  induction pairs with
  | nil =>
    intro sigs1 sigs2 recs1 recs2 hs hr
    exact ⟨hs, hr⟩
  | cons pr rest ih =>
    intro sigs1 sigs2 recs1 recs2 hs hr
    obtain ⟨s1, s2⟩ := pr
    simp only [scanLoop]
    rw [analyze_pair_shift cfg q (c1 s1 s2), analyze_pair_shift cfg q (c2 s1 s2)]
    cases h0 : analyze_pair cfg q 0 s1 s2 (histOf st s1) (histOf st s2) with
    | none =>
      simp only [Option.map_none']
      exact ih sigs1 sigs2 recs1 recs2 hs hr
    | some sg0 =>
      simp only [Option.map_some']
      rw [confGate_shift cfg sg0 (c1 s1 s2), confGate_shift cfg sg0 (c2 s1 s2)]
      by_cases hg : confGate cfg sg0 = true
      · rw [if_pos hg, if_pos hg]
        refine ih _ _ _ _ ?_ ?_
        · simp only [List.map_append, hs, List.map_cons, List.map_nil,
            stripTime_shift]
        · simp only [List.map_append, hr, List.map_cons, List.map_nil,
            toRecord_shift, recStrip_shift]
      · rw [if_neg hg, if_neg hg]
        refine ih _ _ _ _ hs ?_
        simp only [List.map_append, hr, List.map_cons, List.map_nil,
          toRecord_shift, recStrip_shift]

theorem edgeKey_strip (sg : TradingSignal) : edgeKey sg.stripTime = edgeKey sg := rfl

theorem edgeKey_of_strip_eq {a b : TradingSignal}
    (h : a.stripTime = b.stripTime) : edgeKey a = edgeKey b := by
  rw [← edgeKey_strip a, ← edgeKey_strip b, h]

theorem orderedInsert_strip (a b : TradingSignal)
    (hab : a.stripTime = b.stripTime) :
    ∀ (l1 l2 : List TradingSignal),
      l1.map TradingSignal.stripTime = l2.map TradingSignal.stripTime →
      (l1.orderedInsert edgeGE a).map TradingSignal.stripTime =
        (l2.orderedInsert edgeGE b).map TradingSignal.stripTime := by
  intro l1
  induction l1 with
  | nil =>
    intro l2 h
    cases l2 with
    | nil => simpa [List.orderedInsert] using hab
    | cons y l2 => exact absurd h (by simp)
  | cons x l1 ih =>
    intro l2 h
    cases l2 with
    | nil => exact absurd h (by simp)
    | cons y l2 =>
      simp only [List.map_cons, List.cons.injEq] at h
      obtain ⟨hxy, hrest⟩ := h
      simp only [List.orderedInsert]
      have hkey : edgeGE a x ↔ edgeGE b y := by
        unfold edgeGE
        rw [edgeKey_of_strip_eq hab, edgeKey_of_strip_eq hxy]
      by_cases hc : edgeGE a x
      · rw [if_pos hc, if_pos (hkey.mp hc)]
        simp only [List.map_cons, hab, hxy, hrest]
      · rw [if_neg hc, if_neg (fun hx => hc (hkey.mpr hx))]
        simp only [List.map_cons, hxy]
        rw [ih l2 hrest]

theorem insertionSort_strip :
    ∀ (l1 l2 : List TradingSignal),
      l1.map TradingSignal.stripTime = l2.map TradingSignal.stripTime →
      (List.insertionSort edgeGE l1).map TradingSignal.stripTime =
        (List.insertionSort edgeGE l2).map TradingSignal.stripTime := by
  intro l1
  induction l1 with
  | nil =>
    intro l2 h
    cases l2 with
    | nil => rfl
    | cons y l2 => exact absurd h (by simp)
  | cons x l1 ih =>
    intro l2 h
    cases l2 with
    | nil => exact absurd h (by simp)
    | cons y l2 =>
      simp only [List.map_cons, List.cons.injEq] at h
      simp only [List.insertionSort]
      exact orderedInsert_strip x y h.1 _ _ (ih l2 h.2)

/-- C6, amended: the scan is deterministic up to the per-signal wall-clock
timestamp. For a fixed price history and the fixed (deterministic) third-party
numeric kernels, two runs at arbitrary wall-clock instants produce the same
ranked signals — equal pair, hedge_ratio, correlation, cointegration p-value,
half_life, z-score, spread mean and std, signal type, expected edge,
confidence, and metadata — and the same performance records, the timestamp
fields apart; no randomness enters the statistical path. The unamended
"identical ranked output" fails only because each signal stores
datetime.now() of its own run (see the counterexample). -/
theorem scan_deterministic (cfg : Config) (q : Quant)
    (c1 c2 : String → String → ℕ) (st : HistMap) :
    ((find_cointegrated_pairs cfg q c1 st).1.map TradingSignal.stripTime =
      (find_cointegrated_pairs cfg q c2 st).1.map TradingSignal.stripTime) ∧
    ((find_cointegrated_pairs cfg q c1 st).2.map PerfRecord.stripTime =
      (find_cointegrated_pairs cfg q c2 st).2.map PerfRecord.stripTime) := by
  obtain ⟨hs, hr⟩ := scanLoop_strip cfg q c1 c2 st (allPairs (st.map Prod.fst))
    [] [] [] [] rfl rfl
  constructor
  · simp only [find_cointegrated_pairs, ← List.map_take]
    rw [List.map_take, List.map_take, insertionSort_strip _ _ hs]
  · simpa only [find_cointegrated_pairs] using hr

/-! ### The C2 counterexample scenario evaluated -/

theorem analyze_pair_C2 :
    ∃ sg : TradingSignal,
      analyze_pair defaultConfig qC2 0 (("A" : String)) (("B" : String))
          (mkHist p1C2) (mkHist p2C2) = some sg ∧
      sg.confidence = some (79/200) := by
  have hlen1 : ((mkHist p1C2).map Sample.price).length = 30 := by
    rw [List.length_map, mkHist, List.length_map, p1C2, List.length_map,
      List.length_range]
  have hlen2 : ((mkHist p2C2).map Sample.price).length = 30 := by
    rw [List.length_map, mkHist, List.length_map, p2C2, List.length_map,
      List.length_range]
  have hconf : calculate_confidence (1/20) 30 (88/10) 30 = 79/200 := by
    norm_num [calculate_confidence, max_def, min_def, abs_of_nonneg]
  unfold analyze_pair
  dsimp only [qC2]
  rw [if_neg (by rw [hlen1, hlen2]; norm_num [defaultConfig])]
  rw [if_neg (by norm_num [defaultConfig])]
  rw [if_neg (by norm_num [defaultConfig])]
  rw [if_neg (by norm_num : ¬ ((88 : ℚ)/10 = 0))]
  split
  case h_1 heq =>
    rw [List.getLast?_eq_none_iff] at heq
    have hlen := congrArg List.length heq
    rw [List.length_zipWith, hlen1, hlen2] at hlen
    exact absurd hlen (by norm_num)
  case h_2 lastv heq =>
    refine ⟨_, rfl, ?_⟩
    simp only [Option.map_some']
    rw [hlen1, hconf]

/-- C2, counterexample: a signal that fails the confidence gate is still
recorded. On this two-symbol state the single pair passes the history,
correlation and cointegration gates and is constructed with confidence
79/200 ≤ 1/2, so find_cointegrated_pairs returns no signal — yet exactly one
record (with that confidence) is appended to the performance tracker, because
record_signal runs inside _analyze_pair (line 120), before the caller's
confidence gate (line 76). This refutes "a TradingSignal is appended ...
exactly when its pair passes all scan gates ... including the
confidence > min_confidence gate". -/
theorem record_despite_confidence_reject :
    (find_cointegrated_pairs defaultConfig qC2 (fun _ _ => 0) stC2).1 = [] ∧
    ((find_cointegrated_pairs defaultConfig qC2 (fun _ _ => 0) stC2).2.map
      PerfRecord.confidence) = [some (79/200)] := by
  obtain ⟨sg, hsg, hconf⟩ := analyze_pair_C2
  have hgate : confGate defaultConfig sg = false := by
    simp only [confGate, hconf]
    norm_num [defaultConfig]
  have hpairs : allPairs (stC2.map Prod.fst) =
      [((("A" : String)), (("B" : String)))] := rfl
  have hA : histOf stC2 (("A" : String)) = mkHist p1C2 := rfl
  have hB : histOf stC2 (("B" : String)) = mkHist p2C2 := rfl
  simp only [find_cointegrated_pairs, hpairs, scanLoop, hA, hB]
  rw [hsg]
  simp only [hgate, Bool.false_eq_true, if_false]
  simp [scanLoop, List.insertionSort, TradingSignal.toRecord, hconf]

theorem analyze_pair_C6 :
    ∃ sg : TradingSignal,
      analyze_pair defaultConfig qC6 0 (("A" : String)) (("B" : String))
          (mkHist p1C6) (mkHist p2C6) = some sg ∧
      sg.confidence = some (66551/72500) := by
  have hlen1 : ((mkHist p1C6).map Sample.price).length = 30 := by
    rw [List.length_map, mkHist, List.length_map, p1C6, List.length_map,
      List.length_range]
  have hlen2 : ((mkHist p2C6).map Sample.price).length = 30 := by
    rw [List.length_map, mkHist, List.length_map, p2C6, List.length_map,
      List.length_range]
  have hconf : calculate_confidence (1/100) 0 (1017/50000) 30 = 66551/72500 := by
    norm_num [calculate_confidence, max_def, min_def, abs_of_nonneg]
  unfold analyze_pair
  dsimp only [qC6]
  rw [if_neg (by rw [hlen1, hlen2]; norm_num [defaultConfig])]
  rw [if_neg (by norm_num [defaultConfig, abs_of_nonneg])]
  rw [if_neg (by norm_num [defaultConfig])]
  rw [if_neg (by norm_num : ¬ ((1017 : ℚ)/50000 = 0))]
  split
  case h_1 heq =>
    rw [List.getLast?_eq_none_iff] at heq
    have hlen := congrArg List.length heq
    rw [List.length_zipWith, hlen1, hlen2] at hlen
    exact absurd hlen (by norm_num)
  case h_2 lastv heq =>
    refine ⟨_, rfl, ?_⟩
    simp only [Option.map_some']
    rw [hlen1, hconf]

/-- C6, counterexample: two runs of the same scan on the same history are not
literally identical: each signal's timestamp field is the datetime.now() of
its own run, so runs at different wall-clock instants differ (and only in the
timestamp — the statistical fields agree, see scan_deterministic). -/
theorem scan_runs_differ_in_timestamp :
    (find_cointegrated_pairs defaultConfig qC6 (fun _ _ => 0) stC6).1 ≠
      (find_cointegrated_pairs defaultConfig qC6 (fun _ _ => 1) stC6).1 := by
  obtain ⟨sg, hsg, hconf⟩ := analyze_pair_C6
  have hts : sg.timestamp = 0 := analyze_pair_timestamp _ _ _ _ _ _ _ _ hsg
  have hgate : confGate defaultConfig sg = true := by
    simp only [confGate, hconf]
    norm_num [defaultConfig]
  have hsg1 : analyze_pair defaultConfig qC6 1 (("A" : String)) (("B" : String))
      (mkHist p1C6) (mkHist p2C6) = some { sg with timestamp := 1 } := by
    rw [analyze_pair_shift, hsg]
    rfl
  have hgate1 : confGate defaultConfig ({ sg with timestamp := 1 }) = true := by
    rw [confGate_shift]
    exact hgate
  have hpairs : allPairs (stC6.map Prod.fst) =
      [((("A" : String)), (("B" : String)))] := rfl
  have hA : histOf stC6 (("A" : String)) = mkHist p1C6 := rfl
  have hB : histOf stC6 (("B" : String)) = mkHist p2C6 := rfl
  have hrun0 : (find_cointegrated_pairs defaultConfig qC6 (fun _ _ => 0) stC6).1
      = [sg] := by
    simp only [find_cointegrated_pairs, hpairs, scanLoop, hA, hB]
    rw [hsg]
    simp [hgate, scanLoop, List.insertionSort, List.orderedInsert,
      show defaultConfig.max_pairs_to_track = 10 from rfl]
  have hrun1 : (find_cointegrated_pairs defaultConfig qC6 (fun _ _ => 1) stC6).1
      = [{ sg with timestamp := 1 }] := by
    simp only [find_cointegrated_pairs, hpairs, scanLoop, hA, hB]
    rw [hsg1]
    simp [hgate1, scanLoop, List.insertionSort, List.orderedInsert,
      show defaultConfig.max_pairs_to_track = 10 from rfl]
  rw [hrun0, hrun1]
  intro h
  have h1 : sg = { sg with timestamp := 1 } := by
    injection h
  have h2 := congrArg TradingSignal.timestamp h1
  rw [hts] at h2
  exact absurd h2 (by norm_num)

/-! ### Theorems for C8 (update_prices) and C10 (calculate_metrics) -/

theorem findHist_append (st1 st2 : HistMap) (s : String) :
    findHist (st1 ++ st2) s =
      match findHist st1 s with
      | some h => some h
      | none => findHist st2 s := by
  induction st1 with
  | nil => rfl
  | cons kv rest ih =>
    obtain ⟨k, hh⟩ := kv
    rw [List.cons_append]
    simp only [findHist]
    by_cases hk : k = s
    · rw [if_pos hk, if_pos hk]
    · rw [if_neg hk, if_neg hk, ih]

theorem findHist_ensureKey_self (st : HistMap) (s : String) :
    findHist (ensureKey st s) s = some ((findHist st s).getD []) := by
  unfold ensureKey
  cases h : findHist st s with
  | some v =>
    rw [show (if (some v).isSome = true then st else st ++ [(s, [])]) = st from
      if_pos rfl, h]
    rfl
  | none =>
    rw [if_neg (by simp), findHist_append, h]
    simp [findHist]

theorem findHist_ensureKey_other (st : HistMap) {s s' : String} (hk : s' ≠ s) :
    findHist (ensureKey st s) s' = findHist st s' := by
  unfold ensureKey
  split
  · rfl
  · rw [findHist_append]
    cases h : findHist st s' with
    | some v => rfl
    | none =>
      simp only [findHist]
      rw [if_neg (fun hels => hk hels.symm)]

theorem findHist_modify_self (st : HistMap) (s : String)
    (f : List Sample → List Sample) :
    findHist (modifyHist st s f) s = (findHist st s).map f := by
  induction st with
  | nil => rfl
  | cons kv rest ih =>
    obtain ⟨k, hh⟩ := kv
    by_cases hk : k = s
    · simp [modifyHist, findHist, hk]
    · simp [modifyHist, findHist, hk, ih]

theorem findHist_modify_other (st : HistMap) {s s' : String} (hk : s' ≠ s)
    (f : List Sample → List Sample) :
    findHist (modifyHist st s f) s' = findHist st s' := by
  induction st with
  | nil => rfl
  | cons kv rest ih =>
    obtain ⟨k, hh⟩ := kv
    by_cases hks : k = s
    · simp only [modifyHist, if_pos hks, findHist]
      rw [if_neg (by rw [hks]; exact fun h => hk h.symm),
        if_neg (by rw [hks]; exact fun h => hk h.symm)]
    · simp only [modifyHist, if_neg hks, findHist]
      by_cases hk2 : k = s'
      · rw [if_pos hk2, if_pos hk2]
      · rw [if_neg hk2, if_neg hk2, ih]

theorem histOf_update_one (L : ℕ) (st : HistMap) (r : Row) (s : String) :
    histOf (update_one L st r) s =
      if s = r.symbol then evictOne L (histOf st r.symbol ++ [r.toSample])
      else histOf st s := by
  unfold update_one histOf
  by_cases hs : s = r.symbol
  · rw [if_pos hs, hs, findHist_modify_self, findHist_ensureKey_self]
    rfl
  · rw [if_neg hs, findHist_modify_other _ hs, findHist_ensureKey_other _ hs]

theorem update_one_cap (L : ℕ) (st : HistMap) (r : Row)
    (hpre : ∀ s, (histOf st s).length ≤ L) :
    ∀ s, (histOf (update_one L st r) s).length ≤ L := by
  intro s
  rw [histOf_update_one]
  by_cases hs : s = r.symbol
  · rw [if_pos hs]
    unfold evictOne
    have hp := hpre r.symbol
    by_cases hl : L < (histOf st r.symbol ++ [r.toSample]).length
    · rw [if_pos hl]
      simp only [List.length_tail, List.length_append, List.length_cons,
        List.length_nil]
      omega
    · rw [if_neg hl]
      omega
  · rw [if_neg hs]
    exact hpre s

theorem update_prices_cap (L : ℕ) (batch : List Row) :
    ∀ st : HistMap, (∀ s, (histOf st s).length ≤ L) →
      ∀ s, (histOf (update_prices L st batch) s).length ≤ L := by
  induction batch with
  | nil =>
    intro st h
    exact h
  | cons r rest ih =>
    intro st h
    simp only [update_prices, List.foldl_cons]
    exact ih (update_one L st r) (update_one_cap L st r h)

theorem update_prices_other (L : ℕ) (batch : List Row) :
    ∀ (st : HistMap) (s : String), s ∉ batch.map Row.symbol →
      histOf (update_prices L st batch) s = histOf st s := by
  induction batch with
  | nil =>
    intro st s _
    rfl
  | cons r rest ih =>
    intro st s hs
    simp only [List.map_cons, List.mem_cons, not_or] at hs
    simp only [update_prices, List.foldl_cons]
    have step : rest.foldl (update_one L) (update_one L st r) =
        update_prices L (update_one L st r) rest := rfl
    rw [step, ih (update_one L st r) s hs.2, histOf_update_one, if_neg hs.1]

theorem update_prices_nodup_row (L : ℕ) (batch : List Row) :
    ∀ st : HistMap, (batch.map Row.symbol).Nodup →
      ∀ r ∈ batch, histOf (update_prices L st batch) r.symbol =
        evictOne L (histOf st r.symbol ++ [r.toSample]) := by
  induction batch with
  | nil =>
    intro st _ r hr
    exact absurd hr (by simp)
  | cons r0 rest ih =>
    intro st hnd r hr
    simp only [List.map_cons, List.nodup_cons] at hnd
    obtain ⟨hnotin, hnd2⟩ := hnd
    simp only [update_prices, List.foldl_cons]
    have step : rest.foldl (update_one L) (update_one L st r0) =
        update_prices L (update_one L st r0) rest := rfl
    rcases List.mem_cons.mp hr with h | h
    · subst h
      rw [step, update_prices_other L rest _ r.symbol hnotin,
        histOf_update_one, if_pos rfl]
    · have hne : r.symbol ≠ r0.symbol := by
        intro heq
        apply hnotin
        rw [← heq]
        exact List.mem_map.mpr ⟨r, h, rfl⟩
      rw [step, ih (update_one L st r0) hnd2 r h, histOf_update_one, if_neg hne]

theorem update_prices_from_empty (L : ℕ) (batches : List (List Row)) :
    ∀ s, (histOf (batches.foldl (update_prices L) []) s).length ≤ L := by
  have hgen : ∀ (st : HistMap), (∀ s, (histOf st s).length ≤ L) →
      ∀ s, (histOf (batches.foldl (update_prices L) st) s).length ≤ L := by
    induction batches with
    | nil =>
      intro st h
      exact h
    | cons b rest ih =>
      intro st h
      simp only [List.foldl_cons]
      exact ih (update_prices L st b) (update_prices_cap L b st h)
  exact hgen [] (fun s => by simp [histOf, findHist])

/-- C8, counterexample: a batch listing the same symbol twice appends two
samples for that symbol in a single call — update_prices appends one sample
per batch row, not one per symbol. Starting from an empty state, the call
leaves two samples in the history for the symbol. -/
theorem update_prices_dup_symbol :
    (histOf (update_prices 200 [] [rowA1, rowA2]) (("A" : String))).length = 2 := rfl

/-- C8, amended: update_prices appends one sample per batch row, at the end of
its symbol's history (so one sample per symbol per call when each symbol
appears at most once in the batch, in arrival order), then evicts the oldest
sample when the history would exceed the lookback; histories of symbols not in
the batch are untouched, and every history's length stays at most the
lookback: both when it was within capacity before the call and always along
any batch sequence from the empty start state. -/
theorem update_prices_spec (L : ℕ) (st : HistMap) (batch : List Row) :
    ((∀ s, (histOf st s).length ≤ L) →
      ∀ s, (histOf (update_prices L st batch) s).length ≤ L) ∧
    ((batch.map Row.symbol).Nodup →
      ∀ r ∈ batch, histOf (update_prices L st batch) r.symbol =
        evictOne L (histOf st r.symbol ++ [r.toSample])) ∧
    (∀ s, s ∉ batch.map Row.symbol →
      histOf (update_prices L st batch) s = histOf st s) ∧
    (∀ batches : List (List Row), ∀ s,
      (histOf (batches.foldl (update_prices L) []) s).length ≤ L) :=
  ⟨fun h => update_prices_cap L batch st h,
   fun hnd => update_prices_nodup_row L batch st hnd,
   fun s hs => update_prices_other L batch st s hs,
   fun batches => update_prices_from_empty L batches⟩

/-- Witness for the amended C8 theorem at a concrete state and batch. -/
theorem update_prices_spec_witness :
    ((histOf (update_prices 1 [] [rowA1]) (("A" : String))).length ≤ 1) ∧
    histOf (update_prices 1 [] [rowA1]) rowA1.symbol =
      evictOne 1 (histOf [] rowA1.symbol ++ [rowA1.toSample]) :=
  ⟨(update_prices_spec 1 [] [rowA1]).1 (fun s => by simp [histOf, findHist])
      (("A" : String)),
   (update_prices_spec 1 [] [rowA1]).2.1 (by simp) rowA1 (by simp)⟩

/-- C10: calculate_metrics on the empty log returns exactly
{total_signals: 0, avg_confidence: 0.0, avg_expected_edge: 0.0} without taking
the mean of an empty sequence; on a non-empty log it returns the log length
and the arithmetic means of the recorded confidence and expected-edge values
(stated for real-valued records: a NaN record would propagate to a NaN mean,
faithfully to np.mean). -/
theorem calculate_metrics_spec :
    calculate_metrics [] =
      { total_signals := 0, avg_confidence := some 0, avg_expected_edge := some 0 } ∧
    ∀ log : List PerfRecord, log ≠ [] →
      (calculate_metrics log).total_signals = log.length ∧
      ((log.map PerfRecord.confidence).all Option.isSome = true →
        (calculate_metrics log).avg_confidence =
          some (((log.map PerfRecord.confidence).map (fun x => x.getD 0)).sum
            / log.length)) ∧
      ((log.map PerfRecord.expected_edge).all Option.isSome = true →
        (calculate_metrics log).avg_expected_edge =
          some (((log.map PerfRecord.expected_edge).map (fun x => x.getD 0)).sum
            / log.length)) := by
  refine ⟨rfl, ?_⟩
  intro log hne
  have hempty : log.isEmpty = false := by
    cases log with
    | nil => exact absurd rfl hne
    | cons r rest => rfl
  refine ⟨?_, ?_, ?_⟩
  · simp [calculate_metrics, hempty]
  · intro hall
    simp [calculate_metrics, hempty, npMean, hall]
  · intro hall
    simp [calculate_metrics, hempty, npMean, hall]

/-- Witness for the C10 theorem at a concrete one-record log. -/
theorem calculate_metrics_spec_witness :
    (calculate_metrics [recC10]).total_signals = [recC10].length ∧
    (calculate_metrics [recC10]).avg_confidence =
      some ((([recC10].map PerfRecord.confidence).map (fun x => x.getD 0)).sum
        / [recC10].length) :=
  ⟨(calculate_metrics_spec.2 [recC10] (by simp)).1,
   (calculate_metrics_spec.2 [recC10] (by simp)).2.1 (by simp [recC10])⟩
